import Mathlib

/-!
Verification development for the yeyo version-bumping tool.

The Python sources (`yeyo/config.py`, `yeyo/cli.py`) are embedded shallowly:

* Python strings become `List Char`; `str.replace`, `str.split`, the `in`
  substring test and decimal integer formatting are modelled by executable
  functions (`pyReplace`, `splitDots`, `containsSub`, `natToChars`) that follow
  CPython's documented semantics.
* The `semver` 2.x library functions used by the code
  (`parse_version_info`, `format_version`, `bump_major/minor/patch`,
  `bump_prerelease`, `finalize_version`, `_increment_string`, `_compare_by_keys`,
  `_nat_cmp`) are embedded as string-level functions over `List Char`.
* `YeyoConfig` becomes a structure whose `files` field is a `Finset` mirroring
  the Python `set` of `FileVersion` named tuples; every config operation of
  `config.py` is embedded as a pure function.
* File and git side effects of `_update_files`, `update` and `_tag_after` are
  modelled by explicit state passing: file contents are lists of lines, git
  actions become an event list, exceptions become `Except`/`Option` values.
-/

/-- One decimal digit as a character, for `0 ≤ n ≤ 9` (clamped above). -/
def digitChar (n : Nat) : Char :=
  if n = 0 then '0' else if n = 1 then '1' else if n = 2 then '2'
  else if n = 3 then '3' else if n = 4 then '4' else if n = 5 then '5'
  else if n = 6 then '6' else if n = 7 then '7' else if n = 8 then '8' else '9'

/-- Numeric value of a digit character. -/
def digitVal (c : Char) : Nat := c.toNat - 48

/-- Fuelled decimal printer for `Nat` (fuel-structural so the kernel can
evaluate it; `natToChars` supplies enough fuel). -/
def natToCharsF : Nat → Nat → List Char
  | 0, _ => []
  | fuel + 1, n =>
    if n < 10 then [digitChar n]
    else natToCharsF fuel (n / 10) ++ [digitChar (n % 10)]

/-- Decimal representation of a `Nat`, as Python's `str(int)` prints it:
no sign, no leading zeros, `0 ↦ "0"`. -/
def natToChars (n : Nat) : List Char := natToCharsF (n + 1) n

/-- Value of a digit list read in base 10 (leading zeros allowed),
as Python's `int(str)` computes it on an all-digit string. -/
def digitsVal (l : List Char) : Nat := l.foldl (fun a c => 10 * a + digitVal c) 0

/-- Parse a numeric version component per the semver 2.x regex alternative
`0|[1-9]\d*`: nonempty, all digits, and no leading zero. -/
def parseNumStrict (l : List Char) : Option Nat :=
  if l ≠ [] ∧ l.all Char.isDigit ∧ (l = ['0'] ∨ l.head? ≠ some '0') then
    some (digitsVal l)
  else none

/-- Split a list at the first occurrence of `c`: returns the part before it and,
if `c` occurs, the part after it. -/
def breakAtFirst (c : Char) : List Char → List Char × Option (List Char)
  | [] => ([], none)
  | x :: xs =>
    if x = c then ([], some xs)
    else
      let r := breakAtFirst c xs
      (x :: r.1, r.2)

/-- Python's `s.split(".")`: the (always nonempty) list of dot-free chunks. -/
def splitDots : List Char → List (List Char)
  | [] => [[]]
  | c :: rest =>
    if c = '.' then [] :: splitDots rest
    else
      match splitDots rest with
      | [] => [[c]]
      | h :: t => (c :: h) :: t

/-- Python's `sep.join(parts)`. -/
def joinWith (sep : List Char) : List (List Char) → List Char
  | [] => []
  | [x] => x
  | x :: y :: t => x ++ sep ++ joinWith sep (y :: t)

/-- Fuelled worker for `pyReplace`; consumes at least one character of `s`
per unit of fuel, so `s.length` fuel suffices. -/
def pyReplaceF (old new : List Char) : Nat → List Char → List Char
  | _, [] => if old.isEmpty then new else []
  | 0, s => s
  | fuel + 1, c :: rest =>
    if old.isEmpty then new ++ c :: pyReplaceF old new fuel rest
    else if old.isPrefixOf (c :: rest) then
      new ++ pyReplaceF old new fuel ((c :: rest).drop old.length)
    else c :: pyReplaceF old new fuel rest

/-- Python's `s.replace(old, new)`: replace the non-overlapping occurrences of
`old` left to right; an empty `old` inserts `new` around every character. -/
def pyReplace (old new s : List Char) : List Char := pyReplaceF old new s.length s

/-- Fuelled worker for `pySplit`. -/
def pySplitF (old : List Char) : Nat → List Char → List (List Char)
  | _, [] => [[]]
  | 0, s => [s]
  | fuel + 1, c :: rest =>
    if old.isEmpty then [c :: rest]
    else if old.isPrefixOf (c :: rest) then
      [] :: pySplitF old fuel ((c :: rest).drop old.length)
    else
      match pySplitF old fuel rest with
      | [] => [[c]]
      | h :: t => (c :: h) :: t

/-- Python's `s.split(old)` for a nonempty separator: the chunks between the
leftmost non-overlapping occurrences of `old`. -/
def pySplit (old s : List Char) : List (List Char) := pySplitF old s.length s

/-- Python's substring test `sub in s`. -/
def containsSub (sub : List Char) : List Char → Bool
  | [] => sub.isEmpty
  | c :: rest => sub.isPrefixOf (c :: rest) || containsSub sub rest

/-- semver 2.x `_increment_string`: increment the final run of digits of the
string (regex `(?:[^\d]|^)(\d+)$`), leaving the string unchanged when it does
not end in a digit.  The splice keeps any characters of the digit run that the
incremented number does not overwrite. -/
def incrementString (s : List Char) : List Char :=
  let digits := (s.reverse.takeWhile Char.isDigit).reverse
  if digits = [] then s
  else
    let next := natToChars (digitsVal digits + 1)
    s.take (max (s.length - next.length) (s.length - digits.length)) ++ next

/-- Python 2 style three-way comparison on naturals (`cmp`). -/
def cmpNat (a b : Nat) : Ordering :=
  if a < b then .lt else if a = b then .eq else .gt

/-- Lexicographic three-way comparison of strings by character ordinal,
as Python compares `str` values. -/
def cmpChars : List Char → List Char → Ordering
  | [], [] => .eq
  | [], _ :: _ => .lt
  | _ :: _, [] => .gt
  | a :: as_, b :: bs =>
    match cmpNat a.toNat b.toNat with
    | .eq => cmpChars as_ bs
    | o => o

/-- semver 2.x `VersionInfo`: the parsed form of a semantic version.
`prerelease` and `build` hold the raw dotted identifier strings, or `none`
when absent, exactly as `semver.parse_version_info` returns them. -/
structure VersionInfo where
  major : Nat
  minor : Nat
  patch : Nat
  prerelease : Option (List Char)
  build : Option (List Char)
deriving DecidableEq

/-- semver 2.x `format_version`: the canonical string
`MAJOR.MINOR.PATCH[-PRERELEASE][+BUILD]`.  `str(VersionInfo)` and
`YeyoConfig.version_string` both produce this string. -/
def formatVersion (v : VersionInfo) : List Char :=
  natToChars v.major ++ '.' :: natToChars v.minor ++ '.' :: natToChars v.patch
    ++ (match v.prerelease with | none => [] | some p => '-' :: p)
    ++ (match v.build with | none => [] | some b => '+' :: b)

/-- Characters allowed inside prerelease/build identifiers: `[0-9a-zA-Z-]`. -/
def isIdentChar (c : Char) : Bool := c.isAlphanum || c = '-'

/-- One prerelease identifier per the semver 2.x regex alternative
`0|[1-9]\d*|\d*[a-zA-Z-][0-9a-zA-Z-]*`: nonempty, over `[0-9a-zA-Z-]`, and
with no leading zero when fully numeric. -/
def validPreIdent (l : List Char) : Bool :=
  !l.isEmpty && l.all isIdentChar
    && (!(l.all Char.isDigit) || (decide (l = ['0']) || decide (l.head? ≠ some '0')))

/-- The dotted prerelease part of the semver 2.x version regex. -/
def validPrerelease (p : List Char) : Bool := (splitDots p).all validPreIdent

/-- One build identifier per the semver 2.x regex: nonempty over `[0-9a-zA-Z-]`. -/
def validBuildIdent (l : List Char) : Bool := !l.isEmpty && l.all isIdentChar

/-- The dotted build part of the semver 2.x version regex. -/
def validBuild (b : List Char) : Bool := (splitDots b).all validBuildIdent

/-- semver 2.x `parse_version_info`, embedded as a hand parser equivalent to
the anchored `_REGEX`: split off the build at the first `+`, the prerelease at
the first `-` of the remainder (the numeric triple contains neither), then
check each component; `none` where Python raises `ValueError`. -/
def parseVersionInfo (s : List Char) : Option VersionInfo :=
  match breakAtFirst '+' s with
  | (core, buildOpt) =>
    match breakAtFirst '-' core with
    | (trip, preOpt) =>
      match splitDots trip with
      | [a, b, c] =>
        match parseNumStrict a, parseNumStrict b, parseNumStrict c with
        | some major, some minor, some patch =>
          let preOk := match preOpt with | none => true | some p => validPrerelease p
          let buildOk := match buildOpt with | none => true | some bl => validBuild bl
          if preOk && buildOk then some ⟨major, minor, patch, preOpt, buildOpt⟩
          else none
        | _, _, _ => none
      | _ => none

/-- A `VersionInfo` is valid when its optional parts satisfy the grammar that
`parse_version_info` enforces; every version the program ever holds was
produced by parsing, so it satisfies this. -/
def validVersionInfo (v : VersionInfo) : Bool :=
  (match v.prerelease with | none => true | some p => validPrerelease p)
    && (match v.build with | none => true | some b => validBuild b)

/-- semver 2.x `_nat_cmp`'s `convert`: an all-digit identifier compares as a
number, anything else as a string. -/
def preIdentToKey (l : List Char) : Sum Nat (List Char) :=
  if l ≠ [] ∧ l.all Char.isDigit then .inl (digitsVal l) else .inr l

/-- semver 2.x `_nat_cmp`'s `cmp_prerelease_tag`: numbers before strings. -/
def cmpPreKey : Sum Nat (List Char) → Sum Nat (List Char) → Ordering
  | .inl a, .inl b => cmpNat a b
  | .inl _, .inr _ => .lt
  | .inr _, .inl _ => .gt
  | .inr a, .inr b => cmpChars a b

/-- First non-`eq` comparison among the zipped identifier lists. -/
def zipCmp : List (Sum Nat (List Char)) → List (Sum Nat (List Char)) → Option Ordering
  | x :: xs, y :: ys =>
    match cmpPreKey x y with
    | .eq => zipCmp xs ys
    | o => some o
  | _, _ => none

/-- semver 2.x `_nat_cmp` on prerelease strings: compare dotted identifiers
pairwise, falling back to comparing the string lengths. -/
def natCmpPre (a b : List Char) : Ordering :=
  match zipCmp ((splitDots a).map preIdentToKey) ((splitDots b).map preIdentToKey) with
  | some o => o
  | none => cmpNat a.length b.length

/-- semver 2.x `_compare_by_keys`: compare the numeric triple, then the
prerelease (absence of a prerelease sorting above presence); build metadata is
ignored. -/
def compareVI (v1 v2 : VersionInfo) : Ordering :=
  match cmpNat v1.major v2.major with
  | .eq =>
    match cmpNat v1.minor v2.minor with
    | .eq =>
      match cmpNat v1.patch v2.patch with
      | .eq =>
        let rc1 := v1.prerelease.getD []
        let rc2 := v2.prerelease.getD []
        let rccmp := natCmpPre rc1 rc2
        if rccmp = .eq then .eq
        else if rc1 = [] then .gt
        else if rc2 = [] then .lt
        else rccmp
      | o => o
    | o => o
  | o => o

/-- semver 2.x `bump_major` on the version string: parse, then format
`(major+1, 0, 0)` with prerelease and build cleared. -/
def semverBumpMajor (s : List Char) : Option (List Char) :=
  (parseVersionInfo s).map fun v => formatVersion ⟨v.major + 1, 0, 0, none, none⟩

/-- semver 2.x `bump_minor` on the version string. -/
def semverBumpMinor (s : List Char) : Option (List Char) :=
  (parseVersionInfo s).map fun v => formatVersion ⟨v.major, v.minor + 1, 0, none, none⟩

/-- semver 2.x `bump_patch` on the version string. -/
def semverBumpPatch (s : List Char) : Option (List Char) :=
  (parseVersionInfo s).map fun v => formatVersion ⟨v.major, v.minor, v.patch + 1, none, none⟩

/-- semver 2.x `bump_prerelease(version, token)`: increment the existing
prerelease string, or start from `(token or "rc") + ".0"` when the parsed
prerelease is `None` or empty; the build part is dropped. -/
def semverBumpPrerelease (s : List Char) (token : Option (List Char)) : Option (List Char) :=
  (parseVersionInfo s).map fun v =>
    let base :=
      match v.prerelease with
      | some p => if p = [] then (token.getD "rc".data) ++ ".0".data else p
      | none => (token.getD "rc".data) ++ ".0".data
    formatVersion ⟨v.major, v.minor, v.patch, some (incrementString base), none⟩

/-- semver 2.x `finalize_version`: parse, then format the bare triple. -/
def semverFinalize (s : List Char) : Option (List Char) :=
  (parseVersionInfo s).map fun v => formatVersion ⟨v.major, v.minor, v.patch, none, none⟩

/-- `YEYO_VERSION_TEMPLATE`: the placeholder token searched for in match
templates. -/
def yeyoVersionToken : List Char := "yeyo_version".data

/-- `DEFAULT_CONFIG_PATH`. -/
def defaultConfigPath : List Char := ".yeyo.json".data

/-- `DEFAULT_TAG_TEMPLATE` (also the default commit template):
a jinja2 expression rendering the version. -/
def defaultTagTemplate : List Char := "\x7b\x7b yeyo_version \x7d\x7d".data

/-- Modelled from the spec: the template renderer is an external collaborator
(`jinja2.Template(...).render(yeyo_version=..., files=...)`); modelled as the
substitution of the `yeyo_version` placeholder expression by the version
string, which is all the tag/commit templates of this program use. -/
def renderYeyoTemplate (template value : List Char) : List Char :=
  pyReplace defaultTagTemplate value template

/-- `FileVersion`: a file path (modelled as its string form) and the match
template used for search and replace. -/
structure FileVersion where
  file_path : List Char
  match_template : List Char
deriving DecidableEq

/-- The rendered text of a match template at a version: the code's
`match_template.replace(YEYO_VERSION_TEMPLATE, str(v))`. -/
def renderTemplate (t : List Char) (v : VersionInfo) : List Char :=
  pyReplace yeyoVersionToken (formatVersion v) t

/-- `FileVersion.replace(s, v1, v2)`: render the search and replace strings
from the template and substitute in `s`. -/
def FileVersion.replace (fv : FileVersion) (s : List Char) (v1 v2 : VersionInfo) : List Char :=
  pyReplace (renderTemplate fv.match_template v1) (renderTemplate fv.match_template v2) s

/-- `YeyoConfig`: version, the two templates, and the set of tracked files. -/
structure YeyoConfig where
  version : VersionInfo
  tag_template : List Char
  commit_template : List Char
  files : Finset FileVersion
deriving DecidableEq

/-- `YeyoConfig.version_string` (also `str(version)`). -/
def YeyoConfig.version_string (c : YeyoConfig) : List Char := formatVersion c.version

/-- `YeyoConfig.__eq__`: structural equality on version and file set only;
the templates are not compared. -/
def yeyoEq (c1 c2 : YeyoConfig) : Bool :=
  decide (c1.files = c2.files) && decide (c1.version = c2.version)

/-- `YeyoConfig.remove_file`: keep the bindings whose path differs. -/
def YeyoConfig.remove_file (c : YeyoConfig) (p : List Char) : YeyoConfig :=
  ⟨c.version, c.tag_template, c.commit_template,
    c.files.filter (fun fv => fv.file_path ≠ p)⟩

/-- `YeyoConfig.add_file`: `set.add` of the `(path, template)` pair — a pair
equal to an existing element leaves the set unchanged, a distinct pair is
added even when its path already occurs. -/
def YeyoConfig.add_file (c : YeyoConfig) (p t : List Char) : YeyoConfig :=
  ⟨c.version, c.tag_template, c.commit_template, insert ⟨p, t⟩ c.files⟩

/-- `YeyoConfig.from_version_string`: parse the version (the `add_file` fold
over the given set reproduces that set); `none` where Python raises. -/
def fromVersionString (s tag commit : List Char) (files : Finset FileVersion) :
    Option YeyoConfig :=
  (parseVersionInfo s).map fun v => ⟨v, tag, commit, files⟩

/-- `YeyoConfig.bump_major`. -/
def YeyoConfig.bump_major (c : YeyoConfig) : Option YeyoConfig :=
  (semverBumpMajor c.version_string).bind fun s =>
    fromVersionString s c.tag_template c.commit_template c.files

/-- `YeyoConfig.bump_minor`. -/
def YeyoConfig.bump_minor (c : YeyoConfig) : Option YeyoConfig :=
  (semverBumpMinor c.version_string).bind fun s =>
    fromVersionString s c.tag_template c.commit_template c.files

/-- `YeyoConfig.bump_patch`. -/
def YeyoConfig.bump_patch (c : YeyoConfig) : Option YeyoConfig :=
  (semverBumpPatch c.version_string).bind fun s =>
    fromVersionString s c.tag_template c.commit_template c.files

/-- `YeyoConfig.finalize`. -/
def YeyoConfig.finalize (c : YeyoConfig) : Option YeyoConfig :=
  (semverFinalize c.version_string).bind fun s =>
    fromVersionString s c.tag_template c.commit_template c.files

/-- Python truthiness of the prerelease field (`None` and `""` are falsy). -/
def prereleaseTruthy (v : VersionInfo) : Bool :=
  match v.prerelease with
  | none => false
  | some p => !p.isEmpty

/-- `YeyoConfig.bump_prerelease(prerelease_token)`: with no current
prerelease, bump with the hardcoded token `"dev"`; with a current prerelease
and no token, increment it; otherwise finalize first and start the given
token's sequence. -/
def YeyoConfig.bump_prerelease (c : YeyoConfig) (token : Option (List Char)) :
    Option YeyoConfig :=
  if c.version.prerelease = none then
    (semverBumpPrerelease c.version_string (some "dev".data)).bind fun s =>
      fromVersionString s c.tag_template c.commit_template c.files
  else if token = none ∧ prereleaseTruthy c.version then
    (semverBumpPrerelease c.version_string c.version.prerelease).bind fun s =>
      fromVersionString s c.tag_template c.commit_template c.files
  else
    (c.finalize).bind fun fc =>
      (semverBumpPrerelease fc.version_string token).bind fun s =>
        fromVersionString s c.tag_template c.commit_template c.files

/-- The audit record printed by `_update_files` in dry-run mode:
file name, original line, would-be new line. -/
structure AuditRecord where
  fileName : List Char
  origLine : List Char
  newLine : List Char
deriving DecidableEq

/-- Python iterates `self.files` in an unspecified set order; the model fixes
the lexicographic order on `(file_path, match_template)` as the
determinization of that iteration. -/
instance : LinearOrder FileVersion :=
  LinearOrder.lift' (fun fv => toLex (fv.file_path, fv.match_template))
    (fun a b h => by
      cases a; cases b
      simpa [Prod.ext_iff] using congrArg (fun x => ofLex x) h)

/-- The iteration order of a `FileVersion` set in this model. -/
def fvList (s : Finset FileVersion) : List FileVersion := s.sort (· ≤ ·)

/-- The per-line loop of `_update_files` for one binding: when not in dry-run
the rewritten line is written back (`fileinput` in-place mode), in dry-run the
file is left as is and an audit record is printed for each line containing the
old config's `version_string`. -/
def updateLines (fv : FileVersion) (oldV newV : VersionInfo) (dryrun : Bool) :
    List (List Char) → List (List Char) × List AuditRecord
  | [] => ([], [])
  | l :: rest =>
    let r := updateLines fv oldV newV dryrun rest
    let newLine := fv.replace l oldV newV
    if dryrun then
      (l :: r.1,
        (if containsSub (formatVersion oldV) l then [⟨fv.file_path, l, newLine⟩] else []) ++ r.2)
    else (newLine :: r.1, r.2)

/-- One step of the `_update_files` loop over bindings, acting on a filesystem
modelled as a map from paths to line lists. -/
def applyBinding (oldV newV : VersionInfo) (dryrun : Bool)
    (ac : (List Char → List (List Char)) × List AuditRecord) (fv : FileVersion) :
    (List Char → List (List Char)) × List AuditRecord :=
  let r := updateLines fv oldV newV dryrun (ac.1 fv.file_path)
  (fun p => if p = fv.file_path then r.1 else ac.1 p, ac.2 ++ r.2)

/-- `YeyoConfig._update_files`: process every tracked binding. -/
def updateFilesAll (newC oldC : YeyoConfig) (dryrun : Bool)
    (fs : List Char → List (List Char)) :
    (List Char → List (List Char)) × List AuditRecord :=
  (fvList newC.files).foldl (applyBinding oldC.version newC.version dryrun) (fs, [])

/-- The JSON document written by `YeyoConfigEncoder` and read back by
`YeyoConfigDecoder`: the file list (each entry already decoded to its
`file_path`/`match_template` pair), the canonical version string, and the two
templates. -/
structure ConfigDoc where
  files : Finset (List Char × List Char)
  version : List Char
  tag_template : List Char
  commit_template : List Char
deriving DecidableEq

/-- `YeyoConfigEncoder.default` composed with `YeyoConfig.to_json`.  The JSON
file array is written in the set's unspecified iteration order, so the
document models it up to ordering, as a set of pairs. -/
def encodeConfig (c : YeyoConfig) : ConfigDoc :=
  ⟨c.files.image (fun fv => (fv.file_path, fv.match_template)),
    c.version_string, c.tag_template, c.commit_template⟩

/-- `YeyoConfigDecoder.object_hook` composed with `YeyoConfig.from_json`:
each file object becomes a `FileVersion`, the file list becomes a set, and the
version string is parsed (`none` where Python raises `ValueError`).  The
`tag_template`/`commit_template` defaults apply only to documents missing
those keys; encoded documents always carry them. -/
def decodeConfig (d : ConfigDoc) : Option YeyoConfig :=
  (parseVersionInfo d.version).map fun v =>
    ⟨v, d.tag_template, d.commit_template,
      d.files.image fun pr => FileVersion.mk pr.1 pr.2⟩

/-- A git action performed through the `git.Repo` collaborator. -/
inductive GitEvent where
  | addFiles (paths : Finset (List Char))
  | commit (message : List Char)
  | tag (name : List Char)
deriving DecidableEq

/-- The `YeyoDirtyRepoException`, carrying the extra untracked files. -/
inductive YeyoError where
  | dirtyRepo (extra : Finset (List Char))
deriving DecidableEq

/-- Equality of modelled exception-or-result values is decidable. -/
instance {ε α : Type} [DecidableEq ε] [DecidableEq α] : DecidableEq (Except ε α) :=
  fun x y =>
    match x, y with
    | .ok a, .ok b => decidable_of_iff (a = b) (by simp)
    | .error a, .error b => decidable_of_iff (a = b) (by simp)
    | .ok _, .error _ => isFalse (by simp)
    | .error _, .ok _ => isFalse (by simp)

/-- The repository state `_tag_after` inspects: the untracked files. -/
structure RepoState where
  untracked : Finset (List Char)

/-- `YeyoConfig.string_files`. -/
def YeyoConfig.string_files (c : YeyoConfig) : Finset (List Char) :=
  c.files.image (fun fv => fv.file_path)

/-- `YeyoConfig._tag_after`: raise `YeyoDirtyRepoException` when untracked
files besides the tracked paths and `DEFAULT_CONFIG_PATH` exist, otherwise
stage the tracked files and the config file, commit, and tag. -/
def tagAfterFn (c : YeyoConfig) (repo : RepoState) : Except YeyoError (List GitEvent) :=
  let filePaths := c.string_files ∪ {defaultConfigPath}
  let extra := repo.untracked \ filePaths
  if extra = ∅ then
    .ok ((if c.files = ∅ then [] else [GitEvent.addFiles c.string_files])
      ++ [GitEvent.addFiles {defaultConfigPath},
          GitEvent.commit (renderYeyoTemplate c.commit_template c.version_string),
          GitEvent.tag (renderYeyoTemplate c.tag_template c.version_string)])
  else .error (.dirtyRepo extra)

/-- The observable outcome of `YeyoConfig.update`: git actions performed in
order, the persisted config document if any, the resulting file contents, the
dry-run audit records, and the exception escaping the call if any. -/
structure UpdateResult where
  gitEvents : List GitEvent
  configWritten : Option ConfigDoc
  fileSystem : List Char → List (List Char)
  audits : List AuditRecord
  err : Option YeyoError

/-- `YeyoConfig.update(old, config_path, dryrun, git_tag_before,
git_tag_after)`: optional pre-tag, file rewrite, then either the dry-run
report or persisting the config followed by the optional tag-after step. -/
def YeyoConfig.update (newC oldC : YeyoConfig) (fs : List Char → List (List Char))
    (repo : RepoState) (dryrun tagBefore tagAfter : Bool) : UpdateResult :=
  let evsBefore :=
    if tagBefore && !dryrun then
      [GitEvent.tag (renderYeyoTemplate newC.tag_template newC.version_string)]
    else []
  let fsA := if newC.files = ∅ then (fs, []) else updateFilesAll newC oldC dryrun fs
  if dryrun then ⟨evsBefore, none, fsA.1, fsA.2, none⟩
  else
    match (if tagAfter then tagAfterFn newC repo else .ok []) with
    | .ok evs => ⟨evsBefore ++ evs, some (encodeConfig newC), fsA.1, fsA.2, none⟩
    | .error e => ⟨evsBefore, some (encodeConfig newC), fsA.1, fsA.2, some e⟩

theorem isEmpty_false_of_ne_nil {l : List Char} (h : l ≠ []) : l.isEmpty = false := by
  cases l with
  | nil => exact absurd rfl h
  | cons c t => rfl

theorem digitVal_digitChar {n : Nat} (h : n < 10) : digitVal (digitChar n) = n := by
  interval_cases n <;> rfl

theorem isDigit_digitChar {n : Nat} (h : n < 10) : (digitChar n).isDigit = true := by
  interval_cases n <;> rfl

theorem digitChar_eq_zero {n : Nat} (h : n < 10) (hz : digitChar n = '0') : n = 0 := by
  interval_cases n <;> simp_all <;> exact absurd hz (by decide)

theorem digitsVal_append_singleton (a : List Char) (c : Char) :
    digitsVal (a ++ [c]) = 10 * digitsVal a + digitVal c := by
  simp [digitsVal, List.foldl_append]

theorem natToCharsF_ne_nil {f n : Nat} (h : n < f) : natToCharsF f n ≠ [] := by
  match f with
  | fuel + 1 =>
    by_cases h10 : n < 10
    · simp [natToCharsF, h10]
    · simp [natToCharsF, h10]

theorem mem_natToCharsF_isDigit {f : Nat} :
    ∀ {n : Nat}, n < f → ∀ c ∈ natToCharsF f n, c.isDigit = true := by
  induction f with
  | zero => intro n h; omega
  | succ fuel ih =>
    intro n _ c hc
    by_cases h10 : n < 10
    · simp [natToCharsF, h10] at hc
      subst hc; exact isDigit_digitChar h10
    · simp only [natToCharsF, h10, if_false] at hc
      rcases List.mem_append.mp hc with h1 | h1
      · exact ih (by omega) c h1
      · simp at h1; subst h1; exact isDigit_digitChar (Nat.mod_lt _ (by omega))

theorem digitsVal_natToCharsF {f : Nat} :
    ∀ {n : Nat}, n < f → digitsVal (natToCharsF f n) = n := by
  induction f with
  | zero => intro n h; omega
  | succ fuel ih =>
    intro n hn
    by_cases h10 : n < 10
    · simp [natToCharsF, h10, digitsVal, digitVal_digitChar h10]
    · have hd : n / 10 < fuel := by
        have := Nat.div_lt_self (by omega : 0 < n) (by omega : 1 < 10)
        omega
      simp only [natToCharsF, h10, if_false]
      rw [digitsVal_append_singleton, ih hd, digitVal_digitChar (Nat.mod_lt _ (by omega))]
      omega

theorem head_natToCharsF_zero {f : Nat} :
    ∀ {n : Nat}, n < f → (natToCharsF f n).head? = some '0' → n = 0 := by
  induction f with
  | zero => intro n h; omega
  | succ fuel ih =>
    intro n hn hz
    by_cases h10 : n < 10
    · simp [natToCharsF, h10] at hz
      exact digitChar_eq_zero h10 hz
    · have hne := natToCharsF_ne_nil (show n / 10 < fuel by
        have := Nat.div_lt_self (by omega : 0 < n) (by omega : 1 < 10); omega)
      simp only [natToCharsF, h10, if_false] at hz
      obtain ⟨c0, t0, hct⟩ := List.exists_cons_of_ne_nil hne
      rw [hct] at hz
      simp at hz
      have hh : (natToCharsF fuel (n / 10)).head? = some '0' := by rw [hct]; simp [hz]
      have := ih (show n / 10 < fuel by
        have := Nat.div_lt_self (by omega : 0 < n) (by omega : 1 < 10); omega) hh
      omega

theorem natToChars_ne_nil (n : Nat) : natToChars n ≠ [] :=
  natToCharsF_ne_nil (Nat.lt_succ_self n)

theorem mem_natToChars_isDigit {n : Nat} : ∀ c ∈ natToChars n, c.isDigit = true :=
  mem_natToCharsF_isDigit (Nat.lt_succ_self n)

theorem digitsVal_natToChars (n : Nat) : digitsVal (natToChars n) = n :=
  digitsVal_natToCharsF (Nat.lt_succ_self n)

theorem natToChars_zero : natToChars 0 = ['0'] := rfl

theorem parseNumStrict_natToChars (n : Nat) : parseNumStrict (natToChars n) = some n := by
  have hall : (natToChars n).all Char.isDigit = true :=
    List.all_eq_true.mpr fun c hc => mem_natToChars_isDigit c hc
  have hlead : natToChars n = ['0'] ∨ (natToChars n).head? ≠ some '0' := by
    by_cases h0 : n = 0
    · subst h0; exact Or.inl natToChars_zero
    · refine Or.inr fun hz => h0 ?_
      exact head_natToCharsF_zero (Nat.lt_succ_self n) hz
  rw [parseNumStrict, if_pos ⟨natToChars_ne_nil n, hall, hlead⟩, digitsVal_natToChars]

theorem breakAtFirst_not_mem {c : Char} : ∀ {l : List Char}, c ∉ l →
    breakAtFirst c l = (l, none) := by
  intro l
  induction l with
  | nil => intro _; rfl
  | cons x xs ih =>
    intro h
    have hx : ¬ x = c := fun he => h (by simp [he])
    have hxs : c ∉ xs := fun hm => h (by simp [hm])
    simp [breakAtFirst, hx, ih hxs]

theorem breakAtFirst_append {c : Char} : ∀ {a : List Char} (b : List Char), c ∉ a →
    breakAtFirst c (a ++ c :: b) = (a, some b) := by
  intro a
  induction a with
  | nil => intro b _; simp [breakAtFirst]
  | cons x xs ih =>
    intro b h
    have hx : ¬ x = c := fun he => h (by simp [he])
    have hxs : c ∉ xs := fun hm => h (by simp [hm])
    simp [breakAtFirst, hx, ih b hxs]

theorem splitDots_ne_nil : ∀ (l : List Char), splitDots l ≠ [] := by
  intro l
  induction l with
  | nil => simp [splitDots]
  | cons c rest ih =>
    by_cases hc : c = '.'
    · simp [splitDots, hc]
    · simp only [splitDots, hc, if_false]
      match hs : splitDots rest with
      | [] => simp
      | h :: t => simp

theorem splitDots_no_dot : ∀ {l : List Char}, '.' ∉ l → splitDots l = [l] := by
  intro l
  induction l with
  | nil => intro _; rfl
  | cons c rest ih =>
    intro h
    have hc : ¬ c = '.' := fun he => h (by simp [he])
    have hrest : '.' ∉ rest := fun hm => h (by simp [hm])
    simp only [splitDots, hc, if_false, ih hrest]

theorem splitDots_append {a : List Char} (rest : List Char) (h : '.' ∉ a) :
    splitDots (a ++ '.' :: rest) = a :: splitDots rest := by
  induction a with
  | nil => simp [splitDots]
  | cons x xs ih =>
    have hx : ¬ x = '.' := fun he => h (by simp [he])
    have hxs : '.' ∉ xs := fun hm => h (by simp [hm])
    simp only [List.cons_append, splitDots, hx, if_false, List.append_eq]
    rw [ih hxs]

theorem mem_splitDots {c : Char} : ∀ {l : List Char}, c ∈ l →
    c = '.' ∨ ∃ part ∈ splitDots l, c ∈ part := by
  intro l
  induction l with
  | nil => intro h; simp at h
  | cons x rest ih =>
    intro h
    by_cases hx : x = '.'
    · rcases List.mem_cons.mp h with h1 | h1
      · exact Or.inl (h1.trans hx)
      · rcases ih h1 with h2 | ⟨part, hp, hcp⟩
        · exact Or.inl h2
        · exact Or.inr ⟨part, by simp [splitDots, hx, hp], hcp⟩
    · simp only [splitDots, hx, if_false]
      match hs : splitDots rest with
      | [] => exact absurd hs (splitDots_ne_nil rest)
      | hd :: tl =>
        rcases List.mem_cons.mp h with h1 | h1
        · exact Or.inr ⟨x :: hd, by simp, by simp [h1]⟩
        · rcases ih h1 with h2 | ⟨part, hp, hcp⟩
          · exact Or.inl h2
          · rw [hs] at hp
            rcases List.mem_cons.mp hp with h3 | h3
            · exact Or.inr ⟨x :: hd, by simp, by rw [h3] at hcp; simp [hcp]⟩
            · exact Or.inr ⟨part, by simp [h3], hcp⟩

theorem validPrerelease_chars {p : List Char} (h : validPrerelease p = true) :
    ∀ c ∈ p, c = '.' ∨ isIdentChar c = true := by
  intro c hc
  rcases mem_splitDots hc with h1 | ⟨part, hp, hcp⟩
  · exact Or.inl h1
  · have hall := (List.all_eq_true.mp h) part hp
    rw [validPreIdent] at hall
    simp only [Bool.and_eq_true] at hall
    exact Or.inr ((List.all_eq_true.mp hall.1.2) c hcp)

theorem validBuild_chars {b : List Char} (h : validBuild b = true) :
    ∀ c ∈ b, c = '.' ∨ isIdentChar c = true := by
  intro c hc
  rcases mem_splitDots hc with h1 | ⟨part, hp, hcp⟩
  · exact Or.inl h1
  · have hall := (List.all_eq_true.mp h) part hp
    rw [validBuildIdent] at hall
    simp only [Bool.and_eq_true] at hall
    exact Or.inr ((List.all_eq_true.mp hall.2) c hcp)

theorem parse_formatVersion : ∀ {v : VersionInfo}, validVersionInfo v = true →
    parseVersionInfo (formatVersion v) = some v := by
  intro v h
  obtain ⟨maj, mnr, pat, pre, bld⟩ := v
  rw [validVersionInfo] at h
  simp only [Bool.and_eq_true] at h
  obtain ⟨hpre, hbld⟩ := h
  have hA := @mem_natToChars_isDigit maj
  have hB := @mem_natToChars_isDigit mnr
  have hC := @mem_natToChars_isDigit pat
  have htrip : ∀ x ∈ natToChars maj ++ '.' :: (natToChars mnr ++ '.' :: natToChars pat),
      x.isDigit = true ∨ x = '.' := by
    intro x hx
    simp only [List.mem_append, List.mem_cons] at hx
    rcases hx with h1 | h1 | h1 | h1 | h1
    · exact Or.inl (hA x h1)
    · exact Or.inr h1
    · exact Or.inl (hB x h1)
    · exact Or.inr h1
    · exact Or.inl (hC x h1)
  have hdash : '-' ∉ natToChars maj ++ '.' :: (natToChars mnr ++ '.' :: natToChars pat) :=
    fun hm => by
      rcases htrip _ hm with h1 | h1
      · exact absurd h1 (by decide)
      · exact absurd h1 (by decide)
  have hplus : '+' ∉ natToChars maj ++ '.' :: (natToChars mnr ++ '.' :: natToChars pat) :=
    fun hm => by
      rcases htrip _ hm with h1 | h1
      · exact absurd h1 (by decide)
      · exact absurd h1 (by decide)
  have hdotA : '.' ∉ natToChars maj := fun hm => absurd (hA _ hm) (by decide)
  have hdotB : '.' ∉ natToChars mnr := fun hm => absurd (hB _ hm) (by decide)
  have hdotC : '.' ∉ natToChars pat := fun hm => absurd (hC _ hm) (by decide)
  have hsplitT : splitDots (natToChars maj ++ '.' :: (natToChars mnr ++ '.' :: natToChars pat))
      = [natToChars maj, natToChars mnr, natToChars pat] := by
    rw [splitDots_append _ hdotA, splitDots_append _ hdotB, splitDots_no_dot hdotC]
  cases pre with
  | none =>
    cases bld with
    | none =>
      have e : formatVersion ⟨maj, mnr, pat, none, none⟩
          = natToChars maj ++ '.' :: (natToChars mnr ++ '.' :: natToChars pat) := by
        simp [formatVersion]
      rw [e]
      simp only [parseVersionInfo, breakAtFirst_not_mem hplus, breakAtFirst_not_mem hdash,
        hsplitT, parseNumStrict_natToChars]
      simp
    | some b =>
      have hb : validBuild b = true := hbld
      have hplusB : '+' ∉ b := fun hm => by
        rcases validBuild_chars hb '+' hm with h1 | h1
        · exact absurd h1 (by decide)
        · exact absurd h1 (by decide)
      have e : formatVersion ⟨maj, mnr, pat, none, some b⟩
          = (natToChars maj ++ '.' :: (natToChars mnr ++ '.' :: natToChars pat)) ++ '+' :: b := by
        simp [formatVersion]
      rw [e, parseVersionInfo]
      rw [breakAtFirst_append b hplus]
      simp only [breakAtFirst_not_mem hdash, hsplitT, parseNumStrict_natToChars]
      simp [hb]
  | some p =>
    have hp : validPrerelease p = true := hpre
    have hplusP : '+' ∉ p := fun hm => by
      rcases validPrerelease_chars hp '+' hm with h1 | h1
      · exact absurd h1 (by decide)
      · exact absurd h1 (by decide)
    have hplusCore : '+' ∉ (natToChars maj ++ '.' :: (natToChars mnr ++ '.' :: natToChars pat))
        ++ '-' :: p := by
      intro hm
      rcases List.mem_append.mp hm with h1 | h1
      · exact hplus h1
      · rcases List.mem_cons.mp h1 with h2 | h2
        · exact absurd h2 (by decide)
        · exact hplusP h2
    cases bld with
    | none =>
      have e : formatVersion ⟨maj, mnr, pat, some p, none⟩
          = (natToChars maj ++ '.' :: (natToChars mnr ++ '.' :: natToChars pat)) ++ '-' :: p := by
        simp [formatVersion]
      rw [e]
      simp only [parseVersionInfo, breakAtFirst_not_mem hplusCore,
        breakAtFirst_append p hdash, hsplitT, parseNumStrict_natToChars]
      simp [hp]
    | some b =>
      have hb : validBuild b = true := hbld
      have hplusB : '+' ∉ b := fun hm => by
        rcases validBuild_chars hb '+' hm with h1 | h1
        · exact absurd h1 (by decide)
        · exact absurd h1 (by decide)
      have e : formatVersion ⟨maj, mnr, pat, some p, some b⟩
          = ((natToChars maj ++ '.' :: (natToChars mnr ++ '.' :: natToChars pat)) ++ '-' :: p)
            ++ '+' :: b := by
        simp [formatVersion]
      rw [e]
      simp only [parseVersionInfo, breakAtFirst_append b hplusCore,
        breakAtFirst_append p hdash, hsplitT, parseNumStrict_natToChars]
      simp [hp, hb]

theorem joinWith_cons_cons (sep : List Char) (c : Char) (h : List Char)
    (t : List (List Char)) : joinWith sep ((c :: h) :: t) = c :: joinWith sep (h :: t) := by
  cases t with
  | nil => rfl
  | cons y t2 => simp [joinWith, List.cons_append]

theorem pySplitF_nil (old : List Char) (f : Nat) : pySplitF old f [] = [[]] := by
  cases f <;> rfl

theorem pyReplaceF_nil {old : List Char} (new : List Char)
    (hOE : old.isEmpty = false) (f : Nat) : pyReplaceF old new f [] = [] := by
  cases f <;> simp [pyReplaceF, hOE]

theorem pySplitF_cons_pos {old : List Char} (hOE : old.isEmpty = false)
    {c : Char} {rest : List Char} {fuel : Nat}
    (hpre : old.isPrefixOf (c :: rest) = true) :
    pySplitF old (fuel + 1) (c :: rest)
      = [] :: pySplitF old fuel ((c :: rest).drop old.length) := by
  simp [pySplitF, hOE, hpre]

theorem pySplitF_cons_neg {old : List Char} (hOE : old.isEmpty = false)
    {c : Char} {rest : List Char} {fuel : Nat} {h : List Char} {t : List (List Char)}
    (hpre : old.isPrefixOf (c :: rest) = false)
    (hsp : pySplitF old fuel rest = h :: t) :
    pySplitF old (fuel + 1) (c :: rest) = (c :: h) :: t := by
  simp [pySplitF, hOE, hpre, hsp]

theorem pyReplaceF_cons_pos {old : List Char} (new : List Char) (hOE : old.isEmpty = false)
    {c : Char} {rest : List Char} {fuel : Nat}
    (hpre : old.isPrefixOf (c :: rest) = true) :
    pyReplaceF old new (fuel + 1) (c :: rest)
      = new ++ pyReplaceF old new fuel ((c :: rest).drop old.length) := by
  simp [pyReplaceF, hOE, hpre]

theorem pyReplaceF_cons_neg {old : List Char} (new : List Char) (hOE : old.isEmpty = false)
    {c : Char} {rest : List Char} {fuel : Nat}
    (hpre : old.isPrefixOf (c :: rest) = false) :
    pyReplaceF old new (fuel + 1) (c :: rest) = c :: pyReplaceF old new fuel rest := by
  simp [pyReplaceF, hOE, hpre]

theorem pySplitF_ne_nil (old : List Char) : ∀ (f : Nat) (s : List Char),
    pySplitF old f s ≠ [] := by
  intro f s
  match f, s with
  | f, [] => rw [pySplitF_nil]; simp
  | 0, c :: rest => simp [pySplitF]
  | fuel + 1, c :: rest =>
    cases hE : old.isEmpty
    · cases hpre : old.isPrefixOf (c :: rest)
      · match hsp : pySplitF old fuel rest with
        | [] => exact absurd hsp (pySplitF_ne_nil old fuel rest)
        | h :: t => rw [pySplitF_cons_neg hE hpre hsp]; simp
      · rw [pySplitF_cons_pos hE hpre]; simp
    · simp [pySplitF, hE]

theorem pySplitF_props {old : List Char} (hold : old ≠ []) :
    ∀ (f : Nat) (s : List Char), s.length ≤ f →
      (∀ seg ∈ pySplitF old f s, containsSub old seg = false) ∧
      (∀ hd tl, pySplitF old f s = hd :: tl → hd <+: s) := by
  have hOE : old.isEmpty = false := isEmpty_false_of_ne_nil hold
  have holdLen : 0 < old.length := List.length_pos.mpr hold
  intro f
  induction f with
  | zero =>
    intro s hs
    have hnil : s = [] := List.length_eq_zero.mp (by omega)
    subst hnil
    rw [pySplitF_nil]
    constructor
    · intro seg hseg
      simp at hseg
      subst hseg
      simp [containsSub, hOE]
    · intro hd tl hcons
      have : hd = [] := (List.cons_eq_cons.mp hcons).1.symm
      subst this
      exact List.nil_prefix
  | succ fuel ih =>
    intro s hs
    cases s with
    | nil =>
      rw [pySplitF_nil]
      constructor
      · intro seg hseg
        simp at hseg
        subst hseg
        simp [containsSub, hOE]
      · intro hd tl hcons
        have : hd = [] := (List.cons_eq_cons.mp hcons).1.symm
        subst this
        exact List.nil_prefix
    | cons c rest =>
      cases hpre : old.isPrefixOf (c :: rest) with
      | true =>
        have hlen : ((c :: rest).drop old.length).length ≤ fuel := by
          rw [List.length_drop]
          simp only [List.length_cons] at hs ⊢
          omega
        obtain ⟨ihSegs, ihHead⟩ := ih _ hlen
        rw [pySplitF_cons_pos hOE hpre]
        constructor
        · intro seg hseg
          rcases List.mem_cons.mp hseg with h1 | h1
          · subst h1; simp [containsSub, hOE]
          · exact ihSegs seg h1
        · intro hd tl hcons
          have : hd = [] := (List.cons_eq_cons.mp hcons).1.symm
          subst this
          exact List.nil_prefix
      | false =>
        have hlen : rest.length ≤ fuel := by
          simp only [List.length_cons] at hs; omega
        obtain ⟨ihSegs, ihHead⟩ := ih rest hlen
        match hsp : pySplitF old fuel rest with
        | [] => exact absurd hsp (pySplitF_ne_nil old fuel rest)
        | h :: t =>
          rw [pySplitF_cons_neg hOE hpre hsp]
          have hHd : h <+: rest := ihHead h t hsp
          constructor
          · intro seg hseg
            rcases List.mem_cons.mp hseg with h1 | h1
            · subst h1
              have hch : ¬ old <+: (c :: h) := by
                intro hcontra
                have hchp : (c :: h) <+: (c :: rest) := by
                  obtain ⟨t0, ht0⟩ := hHd
                  exact ⟨t0, by simp [List.cons_append, ht0]⟩
                have habs : old <+: (c :: rest) := hcontra.trans hchp
                rw [← List.isPrefixOf_iff_prefix, hpre] at habs
                cases habs
              have hchF : old.isPrefixOf (c :: h) = false := by
                cases hb : old.isPrefixOf (c :: h)
                · rfl
                · exact absurd (List.isPrefixOf_iff_prefix.mp hb) hch
              have hcs : containsSub old h = false := ihSegs h (by rw [hsp]; simp)
              simp [containsSub, hchF, hcs]
            · exact ihSegs seg (by rw [hsp]; simp [h1])
          · intro hd tl hcons
            have : hd = c :: h := (List.cons_eq_cons.mp hcons).1.symm
            subst this
            obtain ⟨t0, ht0⟩ := hHd
            exact ⟨t0, by simp [List.cons_append, ht0]⟩

theorem joinWith_pySplitF {old : List Char} (hold : old ≠ []) :
    ∀ (f : Nat) (s : List Char), s.length ≤ f →
      joinWith old (pySplitF old f s) = s := by
  have hOE : old.isEmpty = false := isEmpty_false_of_ne_nil hold
  intro f
  induction f with
  | zero =>
    intro s hs
    have hnil : s = [] := List.length_eq_zero.mp (by omega)
    subst hnil
    rfl
  | succ fuel ih =>
    intro s hs
    cases s with
    | nil => rw [pySplitF_nil]; rfl
    | cons c rest =>
      cases hpre : old.isPrefixOf (c :: rest) with
      | true =>
        have hlen : ((c :: rest).drop old.length).length ≤ fuel := by
          rw [List.length_drop]
          simp only [List.length_cons] at hs ⊢
          have := List.length_pos.mpr hold
          omega
        rw [pySplitF_cons_pos hOE hpre]
        match hsp : pySplitF old fuel ((c :: rest).drop old.length) with
        | [] => exact absurd hsp (pySplitF_ne_nil old fuel _)
        | h :: t =>
          have hj : joinWith old ([] :: h :: t) = old ++ joinWith old (h :: t) := by
            simp [joinWith]
          rw [hj]
          have hihr := ih _ hlen
          rw [hsp] at hihr
          rw [hihr]
          obtain ⟨tail, htail⟩ := List.isPrefixOf_iff_prefix.mp hpre
          rw [← htail, List.drop_left]
      | false =>
        have hlen : rest.length ≤ fuel := by
          simp only [List.length_cons] at hs; omega
        match hsp : pySplitF old fuel rest with
        | [] => exact absurd hsp (pySplitF_ne_nil old fuel rest)
        | h :: t =>
          rw [pySplitF_cons_neg hOE hpre hsp, joinWith_cons_cons]
          have hihr := ih rest hlen
          rw [hsp] at hihr
          rw [hihr]

theorem pyReplaceF_joinWith {old new : List Char} (hold : old ≠ []) :
    ∀ (f : Nat) (s : List Char), s.length ≤ f →
      pyReplaceF old new f s = joinWith new (pySplitF old f s) := by
  have hOE : old.isEmpty = false := isEmpty_false_of_ne_nil hold
  intro f
  induction f with
  | zero =>
    intro s hs
    have hnil : s = [] := List.length_eq_zero.mp (by omega)
    subst hnil
    rw [pySplitF_nil, pyReplaceF_nil new hOE]
    rfl
  | succ fuel ih =>
    intro s hs
    cases s with
    | nil => rw [pySplitF_nil, pyReplaceF_nil new hOE]; rfl
    | cons c rest =>
      cases hpre : old.isPrefixOf (c :: rest) with
      | true =>
        have hlen : ((c :: rest).drop old.length).length ≤ fuel := by
          rw [List.length_drop]
          simp only [List.length_cons] at hs ⊢
          have := List.length_pos.mpr hold
          omega
        rw [pySplitF_cons_pos hOE hpre, pyReplaceF_cons_pos new hOE hpre]
        match hsp : pySplitF old fuel ((c :: rest).drop old.length) with
        | [] => exact absurd hsp (pySplitF_ne_nil old fuel _)
        | h :: t =>
          have hj : joinWith new ([] :: h :: t) = new ++ joinWith new (h :: t) := by
            simp [joinWith]
          rw [hj]
          have hihr := ih _ hlen
          rw [hsp] at hihr
          rw [hihr]
      | false =>
        have hlen : rest.length ≤ fuel := by
          simp only [List.length_cons] at hs; omega
        match hsp : pySplitF old fuel rest with
        | [] => exact absurd hsp (pySplitF_ne_nil old fuel rest)
        | h :: t =>
          rw [pySplitF_cons_neg hOE hpre hsp, pyReplaceF_cons_neg new hOE hpre,
            joinWith_cons_cons]
          have hihr := ih rest hlen
          rw [hsp] at hihr
          rw [hihr]

theorem pySplit_segments {old : List Char} (hold : old ≠ []) (s : List Char) :
    ∀ seg ∈ pySplit old s, containsSub old seg = false :=
  (pySplitF_props hold s.length s le_rfl).1

theorem joinWith_pySplit {old : List Char} (hold : old ≠ []) (s : List Char) :
    joinWith old (pySplit old s) = s :=
  joinWith_pySplitF hold s.length s le_rfl

theorem pyReplace_eq_joinWith {old new : List Char} (hold : old ≠ []) (s : List Char) :
    pyReplace old new s = joinWith new (pySplit old s) :=
  pyReplaceF_joinWith hold s.length s le_rfl

theorem updateLines_write (fv : FileVersion) (v1 v2 : VersionInfo) :
    ∀ lines : List (List Char),
      (updateLines fv v1 v2 false lines).1 = lines.map (fun l => fv.replace l v1 v2) ∧
      (updateLines fv v1 v2 false lines).2 = [] := by
  intro lines
  induction lines with
  | nil => exact ⟨rfl, rfl⟩
  | cons l rest ih => simp [updateLines, ih.1, ih.2]

theorem updateLines_dryrun_fst (fv : FileVersion) (v1 v2 : VersionInfo) :
    ∀ lines : List (List Char), (updateLines fv v1 v2 true lines).1 = lines := by
  intro lines
  induction lines with
  | nil => rfl
  | cons l rest ih => simp [updateLines, ih]

theorem updateLines_dryrun_snd (fv : FileVersion) (v1 v2 : VersionInfo) :
    ∀ lines : List (List Char),
      (updateLines fv v1 v2 true lines).2 = lines.filterMap (fun l =>
        if containsSub (formatVersion v1) l then
          some ⟨fv.file_path, l, fv.replace l v1 v2⟩
        else none) := by
  intro lines
  induction lines with
  | nil => rfl
  | cons l rest ih =>
    cases hc : containsSub (formatVersion v1) l <;>
      simp [updateLines, ih, hc]

theorem cmpNat_self (a : Nat) : cmpNat a a = .eq := by
  simp [cmpNat]

theorem cmpNat_gt {a b : Nat} (h : b < a) : cmpNat a b = .gt := by
  rw [cmpNat, if_neg (by omega), if_neg (by omega)]

theorem compareVI_gt_of_major {v1 v2 : VersionInfo} (h : v2.major < v1.major) :
    compareVI v1 v2 = .gt := by
  simp [compareVI, cmpNat_gt h]

theorem compareVI_gt_of_minor {v1 v2 : VersionInfo} (h1 : v1.major = v2.major)
    (h2 : v2.minor < v1.minor) : compareVI v1 v2 = .gt := by
  simp [compareVI, h1, cmpNat_self, cmpNat_gt h2]

theorem compareVI_gt_of_patch {v1 v2 : VersionInfo} (h1 : v1.major = v2.major)
    (h2 : v1.minor = v2.minor) (h3 : v2.patch < v1.patch) : compareVI v1 v2 = .gt := by
  simp [compareVI, h1, h2, cmpNat_self, cmpNat_gt h3]

theorem bump_major_eq {c : YeyoConfig} (h : validVersionInfo c.version = true) :
    c.bump_major = some ⟨⟨c.version.major + 1, 0, 0, none, none⟩,
      c.tag_template, c.commit_template, c.files⟩ := by
  have hv : validVersionInfo ⟨c.version.major + 1, 0, 0, none, none⟩ = true := rfl
  rw [YeyoConfig.bump_major, YeyoConfig.version_string, semverBumpMajor,
    parse_formatVersion h]
  simp [fromVersionString, parse_formatVersion hv]

theorem bump_minor_eq {c : YeyoConfig} (h : validVersionInfo c.version = true) :
    c.bump_minor = some ⟨⟨c.version.major, c.version.minor + 1, 0, none, none⟩,
      c.tag_template, c.commit_template, c.files⟩ := by
  have hv : validVersionInfo ⟨c.version.major, c.version.minor + 1, 0, none, none⟩ = true := rfl
  rw [YeyoConfig.bump_minor, YeyoConfig.version_string, semverBumpMinor,
    parse_formatVersion h]
  simp [fromVersionString, parse_formatVersion hv]

theorem bump_patch_eq {c : YeyoConfig} (h : validVersionInfo c.version = true) :
    c.bump_patch = some ⟨⟨c.version.major, c.version.minor, c.version.patch + 1, none, none⟩,
      c.tag_template, c.commit_template, c.files⟩ := by
  have hv : validVersionInfo
      ⟨c.version.major, c.version.minor, c.version.patch + 1, none, none⟩ = true := rfl
  rw [YeyoConfig.bump_patch, YeyoConfig.version_string, semverBumpPatch,
    parse_formatVersion h]
  simp [fromVersionString, parse_formatVersion hv]

theorem finalize_eq {c : YeyoConfig} (h : validVersionInfo c.version = true) :
    c.finalize = some ⟨⟨c.version.major, c.version.minor, c.version.patch, none, none⟩,
      c.tag_template, c.commit_template, c.files⟩ := by
  have hv : validVersionInfo
      ⟨c.version.major, c.version.minor, c.version.patch, none, none⟩ = true := rfl
  rw [YeyoConfig.finalize, YeyoConfig.version_string, semverFinalize,
    parse_formatVersion h]
  simp [fromVersionString, parse_formatVersion hv]

/-- C1: for every file binding, rewriting a file for a bump from `v1` to `v2`
replaces, on each line, every occurrence of the binding's match template
rendered at `v1` by the template rendered at `v2` (the output is the rendered
replacement joined between the chunks of the greedy split at the rendered
search text, whose join at the search text restores the line and whose chunks
are free of the search text), and leaves every other part unchanged; with
`dry_run` the file content stays byte-identical. -/
theorem c1_rewrite_exact (fv : FileVersion) (v1 v2 : VersionInfo)
    (lines : List (List Char)) (hs : renderTemplate fv.match_template v1 ≠ []) :
    (updateLines fv v1 v2 false lines).1
      = lines.map (fun l => joinWith (renderTemplate fv.match_template v2)
          (pySplit (renderTemplate fv.match_template v1) l))
  ∧ (∀ l ∈ lines, joinWith (renderTemplate fv.match_template v1)
      (pySplit (renderTemplate fv.match_template v1) l) = l)
  ∧ (∀ l ∈ lines, ∀ seg ∈ pySplit (renderTemplate fv.match_template v1) l,
      containsSub (renderTemplate fv.match_template v1) seg = false)
  ∧ (updateLines fv v1 v2 true lines).1 = lines := by
  refine ⟨?_, ?_, ?_, updateLines_dryrun_fst fv v1 v2 lines⟩
  · rw [(updateLines_write fv v1 v2 lines).1]
    have he : (fun l => fv.replace l v1 v2)
        = fun l => joinWith (renderTemplate fv.match_template v2)
            (pySplit (renderTemplate fv.match_template v1) l) :=
      funext fun l => by rw [FileVersion.replace, pyReplace_eq_joinWith hs]
    rw [he]
  · intro l _
    exact joinWith_pySplit hs l
  · intro l _ seg hseg
    exact pySplit_segments hs l seg hseg

theorem c1_rewrite_exact_witness :
    (renderTemplate ("V yeyo_version".data) ⟨1, 2, 3, none, none⟩ ≠ []) ∧
    ((updateLines ⟨"f".data, "V yeyo_version".data⟩ ⟨1, 2, 3, none, none⟩
        ⟨1, 3, 0, none, none⟩ false ["V 1.2.3 x".data]).1
      = ["V 1.2.3 x".data].map (fun l =>
          joinWith (renderTemplate ("V yeyo_version".data) ⟨1, 3, 0, none, none⟩)
            (pySplit (renderTemplate ("V yeyo_version".data) ⟨1, 2, 3, none, none⟩) l))
  ∧ (∀ l ∈ ["V 1.2.3 x".data],
      joinWith (renderTemplate ("V yeyo_version".data) ⟨1, 2, 3, none, none⟩)
        (pySplit (renderTemplate ("V yeyo_version".data) ⟨1, 2, 3, none, none⟩) l) = l)
  ∧ (∀ l ∈ ["V 1.2.3 x".data],
      ∀ seg ∈ pySplit (renderTemplate ("V yeyo_version".data) ⟨1, 2, 3, none, none⟩) l,
        containsSub (renderTemplate ("V yeyo_version".data) ⟨1, 2, 3, none, none⟩) seg
          = false)
  ∧ (updateLines ⟨"f".data, "V yeyo_version".data⟩ ⟨1, 2, 3, none, none⟩
        ⟨1, 3, 0, none, none⟩ true ["V 1.2.3 x".data]).1 = ["V 1.2.3 x".data]) :=
  ⟨by decide,
    c1_rewrite_exact ⟨"f".data, "V yeyo_version".data⟩ ⟨1, 2, 3, none, none⟩
      ⟨1, 3, 0, none, none⟩ ["V 1.2.3 x".data] (by decide)⟩

/-- C8 as stated is false: in dry-run mode an audit record is emitted for a
line that contains the old version string even though the rendered search text
(`prefix_1.0.0`) does not occur in it. -/
theorem c8_counterexample :
    (updateLines ⟨"f".data, "prefix_yeyo_version".data⟩ ⟨1, 0, 0, none, none⟩
        ⟨1, 1, 0, none, none⟩ true ["see 1.0.0 here".data]).2
      = [⟨"f".data, "see 1.0.0 here".data, "see 1.0.0 here".data⟩]
  ∧ containsSub (renderTemplate ("prefix_yeyo_version".data) ⟨1, 0, 0, none, none⟩)
      ("see 1.0.0 here".data) = false := by
  constructor
  · decide
  · decide

/-- C8 amended: in dry-run mode no file content changes, and an audit record
(file name, original line, would-be new line) is emitted for exactly those
lines that contain the old version's canonical string — not the rendered
search text. -/
theorem c8_amended_audit (fv : FileVersion) (v1 v2 : VersionInfo)
    (lines : List (List Char)) :
    (updateLines fv v1 v2 true lines).1 = lines
  ∧ (updateLines fv v1 v2 true lines).2
      = lines.filterMap (fun l =>
          if containsSub (formatVersion v1) l then
            some ⟨fv.file_path, l, fv.replace l v1 v2⟩
          else none) :=
  ⟨updateLines_dryrun_fst fv v1 v2 lines, updateLines_dryrun_snd fv v1 v2 lines⟩

/-- C2 as stated is false: adding the same path twice with different templates
leaves two bindings for that path in the registry, not one. -/
theorem c2_counterexample :
    ((((YeyoConfig.mk ⟨1, 0, 0, none, none⟩ [] [] ∅).add_file "a".data "t".data).add_file
        "a".data "u".data).files.filter (fun fv => fv.file_path = "a".data)).card = 2
  ∧ ¬ ((((YeyoConfig.mk ⟨1, 0, 0, none, none⟩ [] [] ∅).add_file "a".data
        "t".data).add_file "a".data "u".data).files.filter
          (fun fv => fv.file_path = "a".data)).card = 1 := by
  constructor
  · decide
  · decide

/-- C2 amended: `add_file` is a plain set-add of the whole
`(path, match_template)` pair, so after `add_file(p, t)` and `add_file(p, t2)`
the bindings for a previously unbound `p` are exactly the pairs `(p, t)` and
`(p, t2)` — one binding when `t2 = t`, two distinct bindings otherwise; the
second call does not replace the first. -/
theorem c2_amended (c : YeyoConfig) (p t t2 : List Char)
    (h : ∀ fv ∈ c.files, fv.file_path ≠ p) :
    ((c.add_file p t).add_file p t2).files.filter (fun fv => fv.file_path = p)
      = {⟨p, t2⟩, ⟨p, t⟩}
  ∧ FileVersion.mk p t2 ∈ ((c.add_file p t).add_file p t2).files := by
  have hemp : c.files.filter (fun fv => fv.file_path = p) = ∅ :=
    Finset.filter_eq_empty_iff.mpr (by intro fv hfv; exact h fv hfv)
  constructor
  · simp [YeyoConfig.add_file, Finset.filter_insert, hemp]
  · simp [YeyoConfig.add_file]

theorem c2_amended_witness :
    (∀ fv ∈ (YeyoConfig.mk ⟨1, 0, 0, none, none⟩ [] [] ∅).files,
      fv.file_path ≠ "a".data) ∧
    (((((YeyoConfig.mk ⟨1, 0, 0, none, none⟩ [] [] ∅).add_file "a".data
          "t".data).add_file "a".data "u".data).files.filter
            (fun fv => fv.file_path = "a".data)
        = {⟨"a".data, "u".data⟩, ⟨"a".data, "t".data⟩})
  ∧ FileVersion.mk "a".data "u".data ∈
      (((YeyoConfig.mk ⟨1, 0, 0, none, none⟩ [] [] ∅).add_file "a".data
          "t".data).add_file "a".data "u".data).files) :=
  ⟨by decide,
    c2_amended (YeyoConfig.mk ⟨1, 0, 0, none, none⟩ [] [] ∅) "a".data "t".data
      "u".data (by decide)⟩

/-- C10: removing a path with no binding raises nothing and returns a config
with the same version, templates and file set; doing it twice is a no-op both
times. -/
theorem c10_remove_file_noop (c : YeyoConfig) (p : List Char)
    (h : ∀ fv ∈ c.files, fv.file_path ≠ p) :
    c.remove_file p = c ∧ (c.remove_file p).remove_file p = c.remove_file p := by
  obtain ⟨v, tg, cm, fls⟩ := c
  have hf : fls.filter (fun fv => fv.file_path ≠ p) = fls :=
    Finset.filter_true_of_mem (fun fv hfv => h fv hfv)
  have h1 : YeyoConfig.remove_file ⟨v, tg, cm, fls⟩ p = ⟨v, tg, cm, fls⟩ := by
    simp [YeyoConfig.remove_file, hf]
  exact ⟨h1, by rw [h1]; exact h1⟩

theorem c10_remove_file_noop_witness :
    (∀ fv ∈ (YeyoConfig.mk ⟨1, 0, 0, none, none⟩ [] []
        {FileVersion.mk "b".data "t".data}).files, fv.file_path ≠ "a".data) ∧
    ((YeyoConfig.mk ⟨1, 0, 0, none, none⟩ [] []
        {FileVersion.mk "b".data "t".data}).remove_file "a".data
      = YeyoConfig.mk ⟨1, 0, 0, none, none⟩ [] [] {FileVersion.mk "b".data "t".data}
  ∧ ((YeyoConfig.mk ⟨1, 0, 0, none, none⟩ [] []
        {FileVersion.mk "b".data "t".data}).remove_file "a".data).remove_file "a".data
      = (YeyoConfig.mk ⟨1, 0, 0, none, none⟩ [] []
          {FileVersion.mk "b".data "t".data}).remove_file "a".data) :=
  ⟨by decide,
    c10_remove_file_noop (YeyoConfig.mk ⟨1, 0, 0, none, none⟩ [] []
      {FileVersion.mk "b".data "t".data}) "a".data (by decide)⟩

theorem fromVersionString_format {v : VersionInfo} (h : validVersionInfo v = true)
    (tg cm : List Char) (fls : Finset FileVersion) :
    fromVersionString (formatVersion v) tg cm fls = some ⟨v, tg, cm, fls⟩ := by
  rw [fromVersionString, parse_formatVersion h]
  rfl

theorem semverBumpPrerelease_of_none {v : VersionInfo} (h : validVersionInfo v = true)
    (hp : v.prerelease = none) :
    semverBumpPrerelease (formatVersion v) (some ("dev".data))
      = some (formatVersion ⟨v.major, v.minor, v.patch, some ("dev.1".data), none⟩) := by
  have hinc : incrementString ("dev".data ++ ".0".data) = "dev.1".data := by decide
  rw [semverBumpPrerelease, parse_formatVersion h, Option.map_some']
  simp only [hp]
  rw [Option.getD_some, hinc]

/-- C3 as stated is false: on a version with no prerelease the code passes the
hardcoded token `"dev"` to `semver.bump_prerelease`, ignoring the supplied
token, so `bump_prerelease("a")` on `1.0.0` yields `1.0.0-dev.1`, not
`1.0.0-a.1`. -/
theorem c3_counterexample :
    ((YeyoConfig.mk ⟨1, 0, 0, none, none⟩ [] [] ∅).bump_prerelease
        (some "a".data)).map (fun c2 => c2.version)
      = some ⟨1, 0, 0, some ("dev.1".data), none⟩
  ∧ ¬ (((YeyoConfig.mk ⟨1, 0, 0, none, none⟩ [] [] ∅).bump_prerelease
        (some "a".data)).map (fun c2 => c2.version)
      = some ⟨1, 0, 0, some ("a.1".data), none⟩) := by
  constructor
  · decide
  · decide

/-- C3 amended: for a config whose version has no prerelease,
`bump_prerelease(token)` keeps the `major.minor.patch` triple and sets the
prerelease to `dev.1` regardless of the supplied token (the token is ignored
in this branch). -/
theorem c3_amended (c : YeyoConfig) (token : Option (List Char))
    (h1 : c.version.prerelease = none) (h2 : validVersionInfo c.version = true) :
    (c.bump_prerelease token).map (fun c2 => c2.version)
      = some ⟨c.version.major, c.version.minor, c.version.patch,
          some ("dev.1".data), none⟩ := by
  have hv : validVersionInfo
      ⟨c.version.major, c.version.minor, c.version.patch, some ("dev.1".data), none⟩
        = true := by
    show (validPrerelease ("dev.1".data) && true) = true
    decide
  rw [YeyoConfig.bump_prerelease, if_pos h1, YeyoConfig.version_string,
    semverBumpPrerelease_of_none h2 h1]
  rw [Option.some_bind, fromVersionString_format hv]
  rfl

theorem c3_amended_witness :
    ((YeyoConfig.mk ⟨2, 5, 7, none, none⟩ [] [] ∅).version.prerelease = none
      ∧ validVersionInfo (YeyoConfig.mk ⟨2, 5, 7, none, none⟩ [] [] ∅).version = true) ∧
    ((YeyoConfig.mk ⟨2, 5, 7, none, none⟩ [] [] ∅).bump_prerelease
        (some "rc".data)).map (fun c2 => c2.version)
      = some ⟨2, 5, 7, some ("dev.1".data), none⟩ :=
  ⟨⟨by decide, by decide⟩,
    c3_amended (YeyoConfig.mk ⟨2, 5, 7, none, none⟩ [] [] ∅) (some "rc".data)
      (by decide) (by decide)⟩

/-- C4: starting from `1.0.0`, `bump_prerelease()` yields `1.0.0-dev.1`, a
second `bump_prerelease()` yields `1.0.0-dev.2`, and `bump_prerelease("a")`
on `1.0.0-dev.2` finalizes first and restarts the counter, yielding
`1.0.0-a.1`. -/
theorem c4_prerelease_sequencing :
    ((YeyoConfig.mk ⟨1, 0, 0, none, none⟩ [] [] ∅).bump_prerelease none).map
        (fun c2 => c2.version)
      = some ⟨1, 0, 0, some ("dev.1".data), none⟩
  ∧ (((YeyoConfig.mk ⟨1, 0, 0, none, none⟩ [] [] ∅).bump_prerelease none).bind
        (fun c2 => c2.bump_prerelease none)).map (fun c2 => c2.version)
      = some ⟨1, 0, 0, some ("dev.2".data), none⟩
  ∧ ((((YeyoConfig.mk ⟨1, 0, 0, none, none⟩ [] [] ∅).bump_prerelease none).bind
        (fun c2 => c2.bump_prerelease none)).bind
          (fun c2 => c2.bump_prerelease (some "a".data))).map (fun c2 => c2.version)
      = some ⟨1, 0, 0, some ("a.1".data), none⟩ := by
  refine ⟨by decide, by decide, by decide⟩

/-- C5: saving a valid config state to its document form and loading it back
yields the same state; in particular the code's own equality (version and
file-binding set) accepts the reloaded state. -/
theorem c5_roundtrip (c : YeyoConfig) (h : validVersionInfo c.version = true) :
    decodeConfig (encodeConfig c) = some c
  ∧ (decodeConfig (encodeConfig c)).map (fun c2 => yeyoEq c2 c) = some true := by
  have hdec : decodeConfig (encodeConfig c) = some c := by
    simp only [decodeConfig, encodeConfig, YeyoConfig.version_string]
    rw [parse_formatVersion h]
    rw [Option.map_some']
    rw [Finset.image_image]
    have hcomp : ((fun pr : List Char × List Char => FileVersion.mk pr.1 pr.2) ∘
        (fun fv : FileVersion => (fv.file_path, fv.match_template))) = id :=
      funext fun fv => rfl
    rw [hcomp, Finset.image_id]
  refine ⟨hdec, ?_⟩
  rw [hdec]
  simp [yeyoEq]

theorem c5_roundtrip_witness :
    validVersionInfo (YeyoConfig.mk ⟨1, 2, 3, some ("dev.1".data), none⟩ [] []
        {FileVersion.mk "a".data "t".data}).version = true ∧
    (decodeConfig (encodeConfig (YeyoConfig.mk ⟨1, 2, 3, some ("dev.1".data), none⟩ [] []
        {FileVersion.mk "a".data "t".data}))
      = some (YeyoConfig.mk ⟨1, 2, 3, some ("dev.1".data), none⟩ [] []
          {FileVersion.mk "a".data "t".data})
  ∧ (decodeConfig (encodeConfig (YeyoConfig.mk ⟨1, 2, 3, some ("dev.1".data), none⟩ [] []
        {FileVersion.mk "a".data "t".data}))).map
        (fun c2 => yeyoEq c2 (YeyoConfig.mk ⟨1, 2, 3, some ("dev.1".data), none⟩ [] []
          {FileVersion.mk "a".data "t".data})) = some true) :=
  ⟨by decide,
    c5_roundtrip (YeyoConfig.mk ⟨1, 2, 3, some ("dev.1".data), none⟩ [] []
      {FileVersion.mk "a".data "t".data}) (by decide)⟩

/-- C6: with `tag_after` set and not in dry-run, when untracked files besides
the tracked paths and the state-file path exist, `update` fails with the
dirty-repository error naming them, and the tag-after step performs no git
action at all — the only git event is the optional tag-before tag. -/
theorem c6_dirty_repo (newC oldC : YeyoConfig) (fs : List Char → List (List Char))
    (repo : RepoState) (tagBefore : Bool)
    (h : repo.untracked \ (newC.string_files ∪ {defaultConfigPath}) ≠ ∅) :
    tagAfterFn newC repo
      = .error (.dirtyRepo (repo.untracked \ (newC.string_files ∪ {defaultConfigPath})))
  ∧ (newC.update oldC fs repo false tagBefore true).err
      = some (.dirtyRepo (repo.untracked \ (newC.string_files ∪ {defaultConfigPath})))
  ∧ (newC.update oldC fs repo false tagBefore true).gitEvents
      = (if tagBefore then
          [GitEvent.tag (renderYeyoTemplate newC.tag_template newC.version_string)]
        else []) := by
  have hta : tagAfterFn newC repo
      = .error (.dirtyRepo (repo.untracked \ (newC.string_files ∪ {defaultConfigPath}))) := by
    simp only [tagAfterFn]
    rw [if_neg h]
  refine ⟨hta, ?_, ?_⟩
  · simp [YeyoConfig.update, hta]
  · simp [YeyoConfig.update, hta]

theorem c6_dirty_repo_witness :
    ((RepoState.mk {"zz".data}).untracked \
        ((YeyoConfig.mk ⟨1, 0, 0, none, none⟩ [] []
          {FileVersion.mk "a".data "t".data}).string_files ∪ {defaultConfigPath}) ≠ ∅) ∧
    (tagAfterFn (YeyoConfig.mk ⟨1, 0, 0, none, none⟩ [] []
        {FileVersion.mk "a".data "t".data}) (RepoState.mk {"zz".data})
      = .error (.dirtyRepo ((RepoState.mk {"zz".data}).untracked \
          ((YeyoConfig.mk ⟨1, 0, 0, none, none⟩ [] []
            {FileVersion.mk "a".data "t".data}).string_files ∪ {defaultConfigPath})))
  ∧ ((YeyoConfig.mk ⟨1, 0, 0, none, none⟩ [] []
        {FileVersion.mk "a".data "t".data}).update
          (YeyoConfig.mk ⟨1, 0, 0, none, none⟩ [] [] ∅) (fun _ => [])
          (RepoState.mk {"zz".data}) false true true).err
      = some (.dirtyRepo ((RepoState.mk {"zz".data}).untracked \
          ((YeyoConfig.mk ⟨1, 0, 0, none, none⟩ [] []
            {FileVersion.mk "a".data "t".data}).string_files ∪ {defaultConfigPath})))
  ∧ ((YeyoConfig.mk ⟨1, 0, 0, none, none⟩ [] []
        {FileVersion.mk "a".data "t".data}).update
          (YeyoConfig.mk ⟨1, 0, 0, none, none⟩ [] [] ∅) (fun _ => [])
          (RepoState.mk {"zz".data}) false true true).gitEvents
      = (if true then
          [GitEvent.tag (renderYeyoTemplate
            (YeyoConfig.mk ⟨1, 0, 0, none, none⟩ [] []
              {FileVersion.mk "a".data "t".data}).tag_template
            (YeyoConfig.mk ⟨1, 0, 0, none, none⟩ [] []
              {FileVersion.mk "a".data "t".data}).version_string)]
        else [])) :=
  ⟨by decide,
    c6_dirty_repo (YeyoConfig.mk ⟨1, 0, 0, none, none⟩ [] []
        {FileVersion.mk "a".data "t".data})
      (YeyoConfig.mk ⟨1, 0, 0, none, none⟩ [] [] ∅) (fun _ => [])
      (RepoState.mk {"zz".data}) true (by decide)⟩

/-- C7: for every valid version, including prerelease versions, the major,
minor and patch bumps all produce a strictly greater version under the
embedded semantic-version precedence comparison. -/
theorem c7_bump_monotonic (c : YeyoConfig) (h : validVersionInfo c.version = true) :
    (∃ c2, c.bump_major = some c2 ∧ compareVI c2.version c.version = .gt)
  ∧ (∃ c2, c.bump_minor = some c2 ∧ compareVI c2.version c.version = .gt)
  ∧ (∃ c2, c.bump_patch = some c2 ∧ compareVI c2.version c.version = .gt) := by
  refine ⟨⟨_, bump_major_eq h, ?_⟩, ⟨_, bump_minor_eq h, ?_⟩, ⟨_, bump_patch_eq h, ?_⟩⟩
  · exact compareVI_gt_of_major (Nat.lt_succ_self _)
  · exact compareVI_gt_of_minor rfl (Nat.lt_succ_self _)
  · exact compareVI_gt_of_patch rfl rfl (Nat.lt_succ_self _)

theorem c7_bump_monotonic_witness :
    validVersionInfo (YeyoConfig.mk ⟨1, 2, 3, some ("dev.1".data), none⟩ [] [] ∅).version
        = true ∧
    ((∃ c2, (YeyoConfig.mk ⟨1, 2, 3, some ("dev.1".data), none⟩ [] [] ∅).bump_major
        = some c2 ∧ compareVI c2.version
          (YeyoConfig.mk ⟨1, 2, 3, some ("dev.1".data), none⟩ [] [] ∅).version = .gt)
  ∧ (∃ c2, (YeyoConfig.mk ⟨1, 2, 3, some ("dev.1".data), none⟩ [] [] ∅).bump_minor
        = some c2 ∧ compareVI c2.version
          (YeyoConfig.mk ⟨1, 2, 3, some ("dev.1".data), none⟩ [] [] ∅).version = .gt)
  ∧ (∃ c2, (YeyoConfig.mk ⟨1, 2, 3, some ("dev.1".data), none⟩ [] [] ∅).bump_patch
        = some c2 ∧ compareVI c2.version
          (YeyoConfig.mk ⟨1, 2, 3, some ("dev.1".data), none⟩ [] [] ∅).version = .gt)) :=
  ⟨by decide,
    c7_bump_monotonic (YeyoConfig.mk ⟨1, 2, 3, some ("dev.1".data), none⟩ [] [] ∅)
      (by decide)⟩

/-- C9: `finalize` keeps the `major.minor.patch` triple and drops the
prerelease and build parts, and applying it twice equals applying it once. -/
theorem c9_finalize_idempotent (c : YeyoConfig) (h : validVersionInfo c.version = true) :
    (c.finalize).bind YeyoConfig.finalize = c.finalize
  ∧ (c.finalize).map (fun c2 => c2.version)
      = some ⟨c.version.major, c.version.minor, c.version.patch, none, none⟩ := by
  have h1 := finalize_eq h
  have h2 : (YeyoConfig.mk ⟨c.version.major, c.version.minor, c.version.patch, none, none⟩
        c.tag_template c.commit_template c.files).finalize
      = some (YeyoConfig.mk ⟨c.version.major, c.version.minor, c.version.patch, none, none⟩
          c.tag_template c.commit_template c.files) := finalize_eq rfl
  constructor
  · rw [h1, Option.some_bind]
    exact h2
  · rw [h1]
    rfl

theorem c9_finalize_idempotent_witness :
    validVersionInfo
        (YeyoConfig.mk ⟨1, 2, 3, some ("dev.1".data), some ("b.2".data)⟩ [] [] ∅).version
      = true ∧
    (((YeyoConfig.mk ⟨1, 2, 3, some ("dev.1".data), some ("b.2".data)⟩ [] [] ∅).finalize).bind
        YeyoConfig.finalize
      = (YeyoConfig.mk ⟨1, 2, 3, some ("dev.1".data), some ("b.2".data)⟩ [] [] ∅).finalize
  ∧ ((YeyoConfig.mk ⟨1, 2, 3, some ("dev.1".data), some ("b.2".data)⟩ [] [] ∅).finalize).map
        (fun c2 => c2.version)
      = some ⟨1, 2, 3, none, none⟩) :=
  ⟨by decide,
    c9_finalize_idempotent
      (YeyoConfig.mk ⟨1, 2, 3, some ("dev.1".data), some ("b.2".data)⟩ [] [] ∅)
      (by decide)⟩
